import Mathlib

/-!
Verification of the mexc-bookticker repository against its specification.

The development shallowly embeds the Python sources:

* PublicAggreBookTickerV3Api_pb2.py — the hand-written protobuf decoder
  (readVarint, readString, skipField, parseLoopF / ParseFromString);
  byte strings are modelled as List Nat (each element a byte value),
  Python str values by their UTF-8 byte sequences.
* mexc_multi_streamer.py — trade validation (parseDeal), row flattening
  (processTrade), symbol routing (routeAll), the per-symbol buffer with
  its lock-serialized append/save operations (bufStep), and the CSV save
  loop with its exception behaviour (saveDataToCsv).
* mexc_bookticker_streamer.py — ticker validation (parseTickerMsg) and the
  spread computations (tickerSpread, tickerSpreadPercent).

Python floats are modelled as exact rationals; wall-clock reads are passed
in as explicit parameters.  Loops are embedded with explicit fuel so that
every definition computes; fuel sufficiency is proved, not assumed.
-/

namespace MexcBookTicker

/-! ### Varint decoding, from _read_varint in PublicAggreBookTickerV3Api_pb2.py

The Python loop walks data[pos], pos+1, ... accumulating 7-bit groups.
We iterate over the suffix data.drop pos while tracking the numeric
position, which is the same traversal. -/

def readVarintLoop : List Nat → Nat → Nat → Nat → Nat × Nat
  | [], pos, _, result => (result, pos)
  | byte :: rest, pos, shift, result =>
    let result2 := result ||| ((byte &&& 0x7F) <<< shift)
    if byte &&& 0x80 == 0 then (result2, pos + 1)
    else readVarintLoop rest (pos + 1) (shift + 7) result2

def readVarint (data : List Nat) (pos : Nat) : Nat × Nat :=
  readVarintLoop (data.drop pos) pos 0 0

/-! ### A reference varint encoder (little-endian base 128, continuation bit),
following the wire format the spec describes.  Structural fuel (fuel = n is
always enough, because n / 128 < n) keeps the definition computable. -/

def encodeVarintAux : Nat → Nat → List Nat
  | 0, n => [n % 128]
  | fuel + 1, n => if n < 128 then [n] else (n % 128 + 128) :: encodeVarintAux fuel (n / 128)

def encodeVarint (n : Nat) : List Nat := encodeVarintAux n n

theorem encodeVarintAux_irrel :
    ∀ f1 f2 n : Nat, n ≤ f1 → n ≤ f2 → encodeVarintAux f1 n = encodeVarintAux f2 n := by
  intro f1
  induction f1 with
  | zero =>
    intro f2 n h1 _
    interval_cases n
    cases f2 <;> simp [encodeVarintAux]
  | succ f ih =>
    intro f2 n h1 h2
    match f2 with
    | 0 =>
      interval_cases n
      simp [encodeVarintAux]
    | g + 1 =>
      simp only [encodeVarintAux]
      by_cases h : n < 128
      · simp [h]
      · simp only [h, if_false]
        have hd : n / 128 < n := Nat.div_lt_self (by omega) (by omega)
        rw [ih (g) (n / 128) (by omega) (by omega)]

theorem encodeVarint_eq (n : Nat) :
    encodeVarint n = if n < 128 then [n] else (n % 128 + 128) :: encodeVarint (n / 128) := by
  by_cases h : n < 128
  · cases hn : n with
    | zero => simp [encodeVarint, encodeVarintAux, h]
    | succ m => simp [encodeVarint, encodeVarintAux, hn ▸ h]
  · have h128 : 128 ≤ n := by omega
    have hd : n / 128 < n := Nat.div_lt_self (by omega) (by omega)
    obtain ⟨m, hm⟩ : ∃ m, n = m + 1 := ⟨n - 1, by omega⟩
    subst hm
    simp only [encodeVarint, encodeVarintAux, h, if_false]
    rw [encodeVarintAux_irrel m ((m + 1) / 128) ((m + 1) / 128) (by omega) (le_refl _)]

theorem encodeVarint_ne_nil (n : Nat) : encodeVarint n ≠ [] := by
  rw [encodeVarint_eq]
  by_cases h : n < 128 <;> simp [h]

theorem encodeVarint_length_pos (n : Nat) : 1 ≤ (encodeVarint n).length := by
  have := encodeVarint_ne_nil n
  cases h : encodeVarint n with
  | nil => exact absurd h this
  | cons a l => simp

/-! ### Bit-level helpers -/

theorem and_127_eq_mod (x : Nat) : x &&& 127 = x % 128 := by
  have h : (127 : Nat) = 2 ^ 7 - 1 := by norm_num
  have h2 : (128 : Nat) = 2 ^ 7 := by norm_num
  rw [h, h2, Nat.and_pow_two_sub_one_eq_mod]

theorem and_128_of_lt {n : Nat} (h : n < 128) : n &&& 128 = 0 := by
  apply Nat.eq_of_testBit_eq
  intro j
  rw [Nat.testBit_and]
  have h128 : (128 : Nat) = 2 ^ 7 := by norm_num
  by_cases hj : j = 7
  · subst hj
    have : n.testBit 7 = false := Nat.testBit_lt_two_pow (by norm_num at h ⊢; omega)
    simp [this]
  · have : (128 : Nat).testBit j = false := by
      rw [h128, Nat.testBit_two_pow]
      simp [Ne.symm hj]
    simp [this]

theorem and_128_of_cont {m : Nat} (h : m < 128) : (m + 128) &&& 128 = 128 := by
  apply Nat.eq_of_testBit_eq
  intro j
  rw [Nat.testBit_and]
  have h128 : (128 : Nat) = 2 ^ 7 := by norm_num
  have hrepr : m + 128 = 2 ^ 7 * 1 + m := by omega
  have hbit : (m + 128).testBit j = if j < 7 then m.testBit j else Nat.testBit 1 (j - 7) := by
    rw [hrepr, Nat.testBit_mul_pow_two_add 1 (by norm_num at h ⊢; omega) j]
  by_cases hj : j = 7
  · subst hj
    have h1 : Nat.testBit 1 0 = true := by decide
    have h2 : (128 : Nat).testBit 7 = true := by decide
    simp [hbit, h1, h2]
  · have h2 : (128 : Nat).testBit j = false := by
      rw [h128, Nat.testBit_two_pow]
      simp [Ne.symm hj]
    simp [h2]

theorem lor_shift_eq_add {acc shift : Nat} (m : Nat) (h : acc < 2 ^ shift) :
    acc ||| (m <<< shift) = 2 ^ shift * m + acc := by
  apply Nat.eq_of_testBit_eq
  intro j
  rw [Nat.testBit_mul_pow_two_add m h j, Nat.testBit_or, Nat.testBit_shiftLeft]
  by_cases hj : j < shift
  · have : ¬ (j ≥ shift) := by omega
    simp [hj, this]
  · have hacc : acc.testBit j = false :=
      Nat.testBit_lt_two_pow (lt_of_lt_of_le h (Nat.pow_le_pow_right (by norm_num) (by omega)))
    have : j ≥ shift := by omega
    simp [hj, hacc, this]

/-! ### Varint decode–encode roundtrip -/

theorem readVarintLoop_encode (n : Nat) :
    ∀ (post : List Nat) (pos shift acc : Nat), acc < 2 ^ shift →
      readVarintLoop (encodeVarint n ++ post) pos shift acc
        = (2 ^ shift * n + acc, pos + (encodeVarint n).length) := by
  induction n using Nat.strong_induction_on with
  | _ n ih =>
    intro post pos shift acc hacc
    rw [encodeVarint_eq]
    by_cases h : n < 128
    · simp only [if_pos h, List.cons_append, readVarintLoop]
      have hstop : n &&& 128 = 0 := and_128_of_lt h
      have hmask : n &&& 127 = n := by rw [and_127_eq_mod]; omega
      simp [hstop, hmask, lor_shift_eq_add n hacc, encodeVarint_eq, h]
    · simp only [if_neg h, List.cons_append, readVarintLoop]
      have hmlt : n % 128 < 128 := Nat.mod_lt _ (by omega)
      have hcont : (n % 128 + 128) &&& 128 = 128 := and_128_of_cont hmlt
      have hmask : (n % 128 + 128) &&& 127 = n % 128 := by
        rw [and_127_eq_mod]; omega
      rw [hmask, if_neg (by simp [hcont])]
      have hacc2 : acc ||| ((n % 128) <<< shift) = 2 ^ shift * (n % 128) + acc :=
        lor_shift_eq_add _ hacc
      rw [hacc2]
      have hlt2 : 2 ^ shift * (n % 128) + acc < 2 ^ (shift + 7) := by
        have : 2 ^ (shift + 7) = 2 ^ shift * 128 := by rw [Nat.pow_add]
        rw [this]
        have h1 : 2 ^ shift * (n % 128) ≤ 2 ^ shift * 127 := by
          apply Nat.mul_le_mul_left
          omega
        have h2 : (0:Nat) < 2 ^ shift := Nat.pos_pow_of_pos _ (by norm_num)
        nlinarith
      have hdiv : n / 128 < n := Nat.div_lt_self (by omega) (by omega)
      rw [ih (n / 128) hdiv post (pos + 1) (shift + 7) _ hlt2]
      simp only [Prod.mk.injEq, List.length_cons]
      constructor
      · have hpow : 2 ^ (shift + 7) = 2 ^ shift * 128 := by rw [Nat.pow_add]
        rw [hpow]
        have hsplit : 128 * (n / 128) + n % 128 = n := Nat.div_add_mod n 128
        calc 2 ^ shift * 128 * (n / 128) + (2 ^ shift * (n % 128) + acc)
            = 2 ^ shift * (128 * (n / 128) + n % 128) + acc := by ring
          _ = 2 ^ shift * n + acc := by rw [hsplit]
      · omega

theorem readVarint_encode (pre post : List Nat) (n : Nat) :
    readVarint (pre ++ encodeVarint n ++ post) pre.length
      = (n, pre.length + (encodeVarint n).length) := by
  unfold readVarint
  rw [List.append_assoc, List.drop_left]
  have := readVarintLoop_encode n post pre.length 0 0 (by norm_num)
  simpa using this

/-! ### UTF-8 validity, modelling the bytes.decode utf-8 call in _read_string:
the decode succeeds exactly on well-formed UTF-8 (surrogates and overlong
encodings rejected), in which case the Python str is represented here by the
byte sequence itself; on failure _read_string substitutes the empty string. -/

def isCont (b : Nat) : Bool := 0x80 ≤ b && b ≤ 0xBF

def validUtf8 : List Nat → Bool
  | [] => true
  | b :: rest =>
    if b ≤ 0x7F then validUtf8 rest
    else if 0xC2 ≤ b && b ≤ 0xDF then
      match rest with
      | c :: rest2 => isCont c && validUtf8 rest2
      | [] => false
    else if b == 0xE0 then
      match rest with
      | c1 :: c2 :: rest2 => (0xA0 ≤ c1 && c1 ≤ 0xBF) && isCont c2 && validUtf8 rest2
      | _ => false
    else if (0xE1 ≤ b && b ≤ 0xEC) || b == 0xEE || b == 0xEF then
      match rest with
      | c1 :: c2 :: rest2 => isCont c1 && isCont c2 && validUtf8 rest2
      | _ => false
    else if b == 0xED then
      match rest with
      | c1 :: c2 :: rest2 => (0x80 ≤ c1 && c1 ≤ 0x9F) && isCont c2 && validUtf8 rest2
      | _ => false
    else if b == 0xF0 then
      match rest with
      | c1 :: c2 :: c3 :: rest2 => (0x90 ≤ c1 && c1 ≤ 0xBF) && isCont c2 && isCont c3 && validUtf8 rest2
      | _ => false
    else if 0xF1 ≤ b && b ≤ 0xF3 then
      match rest with
      | c1 :: c2 :: c3 :: rest2 => isCont c1 && isCont c2 && isCont c3 && validUtf8 rest2
      | _ => false
    else if b == 0xF4 then
      match rest with
      | c1 :: c2 :: c3 :: rest2 => (0x80 ≤ c1 && c1 ≤ 0x8F) && isCont c2 && isCont c3 && validUtf8 rest2
      | _ => false
    else false

/-! ### _read_string: reads a varint length, then that many raw bytes.
If the payload would run past the frame end it returns the empty string
WITHOUT raising and without advancing past the length varint; if the bytes
are not valid UTF-8 it likewise returns the empty string. -/

def readStringAfterLen (data : List Nat) (length pos : Nat) : List Nat × Nat :=
  if pos + length > data.length then ([], pos)
  else if validUtf8 ((data.drop pos).take length) then ((data.drop pos).take length, pos + length)
  else ([], pos + length)

def readString (data : List Nat) (pos : Nat) : List Nat × Nat :=
  readStringAfterLen data (readVarint data pos).1 (readVarint data pos).2

/-! ### _skip_field -/

def skipField (data : List Nat) (pos : Nat) (wireType : Nat) : Nat :=
  if wireType == 0 then (readVarint data pos).2
  else if wireType == 2 then (readVarint data pos).2 + (readVarint data pos).1
  else if wireType == 1 then pos + 8
  else if wireType == 5 then pos + 4
  else pos

/-! ### ParseFromString: the decoding loop of PublicAggreBookTickerV3Api.
The Python while loop is embedded with explicit fuel; parseLoopF returns
none only when fuel is exhausted with bytes left, and fuel = data.length is
proved sufficient below (parseLoopF_isSome), so the none branch of
ParseFromString is dead code in the model, mirroring the fact that the
Python loop always terminates and its try/except never fires. -/

structure BookTicker where
  bidPrice : List Nat := []
  bidQuantity : List Nat := []
  askPrice : List Nat := []
  askQuantity : List Nat := []
deriving DecidableEq

def parseLoopF (data : List Nat) : Nat → Nat → BookTicker → Option BookTicker
  | fuel, pos, st =>
    if pos < data.length then
      match fuel with
      | 0 => none
      | fuel + 1 =>
        let kp := readVarint data pos
        let wireType := kp.1 &&& 0x7
        let fieldNum := kp.1 >>> 3
        if fieldNum == 1 then
          let sp := readString data kp.2
          parseLoopF data fuel sp.2 { st with bidPrice := sp.1 }
        else if fieldNum == 2 then
          let sp := readString data kp.2
          parseLoopF data fuel sp.2 { st with bidQuantity := sp.1 }
        else if fieldNum == 3 then
          let sp := readString data kp.2
          parseLoopF data fuel sp.2 { st with askPrice := sp.1 }
        else if fieldNum == 4 then
          let sp := readString data kp.2
          parseLoopF data fuel sp.2 { st with askQuantity := sp.1 }
        else
          parseLoopF data fuel (skipField data kp.2 wireType) st
    else some st

def initBookTicker : BookTicker := {}

def ParseFromString (data : List Nat) : BookTicker × Bool :=
  match parseLoopF data data.length 0 initBookTicker with
  | some st => (st, true)
  | none => (initBookTicker, false)

/-! ### Position advancement and fuel sufficiency -/

theorem readVarintLoop_pos_le (l : List Nat) :
    ∀ pos shift acc, pos ≤ (readVarintLoop l pos shift acc).2 := by
  induction l with
  | nil => intro pos shift acc; simp [readVarintLoop]
  | cons b rest ih =>
    intro pos shift acc
    simp only [readVarintLoop]
    by_cases h : (b &&& 128 == 0) = true
    · simp [h]
    · simp only [h, if_false]
      exact le_trans (by omega) (ih (pos + 1) (shift + 7) _)

theorem readVarintLoop_pos_lt (l : List Nat) (hl : l ≠ []) (pos shift acc : Nat) :
    pos + 1 ≤ (readVarintLoop l pos shift acc).2 := by
  match l with
  | [] => exact absurd rfl hl
  | b :: rest =>
    simp only [readVarintLoop]
    by_cases h : (b &&& 128 == 0) = true
    · simp [h]
    · simp only [h, if_false]
      exact readVarintLoop_pos_le rest (pos + 1) (shift + 7) _

theorem readVarint_pos_le (data : List Nat) (pos : Nat) :
    pos ≤ (readVarint data pos).2 :=
  readVarintLoop_pos_le _ pos 0 0

theorem readVarint_pos_lt (data : List Nat) (pos : Nat) (h : pos < data.length) :
    pos + 1 ≤ (readVarint data pos).2 := by
  apply readVarintLoop_pos_lt
  intro hdrop
  have := List.length_drop pos data
  rw [hdrop] at this
  simp at this
  omega

theorem readString_pos_le (data : List Nat) (pos : Nat) :
    pos ≤ (readString data pos).2 := by
  unfold readString readStringAfterLen
  have h1 := readVarint_pos_le data pos
  split
  · simpa using h1
  · split <;> simp <;> omega

theorem skipField_pos_le (data : List Nat) (pos wt : Nat) :
    pos ≤ skipField data pos wt := by
  unfold skipField
  have h1 := readVarint_pos_le data pos
  split
  · exact h1
  · split
    · omega
    · split
      · omega
      · split <;> omega

theorem parseLoopF_isSome (data : List Nat) :
    ∀ fuel pos st, data.length - pos ≤ fuel → (parseLoopF data fuel pos st).isSome = true := by
  intro fuel
  induction fuel with
  | zero =>
    intro pos st h
    have : ¬ pos < data.length := by omega
    simp [parseLoopF, this]
  | succ fuel ih =>
    intro pos st h
    rw [parseLoopF]
    by_cases hpos : pos < data.length
    · simp only [hpos, if_pos]
      have hadv : pos + 1 ≤ (readVarint data pos).2 := readVarint_pos_lt data pos hpos
      have hrs : (readVarint data pos).2 ≤ (readString data (readVarint data pos).2).2 :=
        readString_pos_le data _
      have hsk := skipField_pos_le data (readVarint data pos).2 ((readVarint data pos).1 &&& 7)
      by_cases h1 : ((readVarint data pos).1 >>> 3 == 1) = true
      · simp only [h1, if_pos]
        exact ih _ _ (by omega)
      · simp only [h1, if_false]
        by_cases h2 : ((readVarint data pos).1 >>> 3 == 2) = true
        · simp only [h2, if_pos]
          exact ih _ _ (by omega)
        · simp only [h2, if_false]
          by_cases h3 : ((readVarint data pos).1 >>> 3 == 3) = true
          · simp only [h3, if_pos]
            exact ih _ _ (by omega)
          · simp only [h3, if_false]
            by_cases h4 : ((readVarint data pos).1 >>> 3 == 4) = true
            · simp only [h4, if_pos]
              exact ih _ _ (by omega)
            · simp only [h4, if_false]
              exact ih _ _ (by omega)
    · simp [hpos]

/-! ### A reference protobuf encoder over the book-ticker schema, following
the wire format described by the specification: each field is a varint key
with fieldNumber = key >> 3 and wireType = key & 0x7, followed by a payload
determined by the wire type.  Known fields 1–4 are length-delimited UTF-8
strings; unknown fields may carry any of the four wire types. -/

inductive EncItem where
  | str (fieldNum : Nat) (s : List Nat)
  | unkVarint (fieldNum v : Nat)
  | unkFixed64 (fieldNum : Nat) (bs : List Nat)
  | unkLen (fieldNum : Nat) (bs : List Nat)
  | unkFixed32 (fieldNum : Nat) (bs : List Nat)
deriving DecidableEq

def encKey (fieldNum wireType : Nat) : List Nat := encodeVarint (fieldNum * 8 + wireType)

def encItem : EncItem → List Nat
  | .str n s => encKey n 2 ++ (encodeVarint s.length ++ s)
  | .unkVarint n v => encKey n 0 ++ encodeVarint v
  | .unkFixed64 n bs => encKey n 1 ++ bs
  | .unkLen n bs => encKey n 2 ++ (encodeVarint bs.length ++ bs)
  | .unkFixed32 n bs => encKey n 5 ++ bs

def encodeItems (items : List EncItem) : List Nat := (items.map encItem).flatten

/-- Syntactic validity of an encoder item: known fields 1–4 hold valid UTF-8
payloads, unknown field numbers lie outside 1–4 and fixed-width payloads have
the advertised width. -/
def validItem : EncItem → Prop
  | .str n s => (n = 1 ∨ n = 2 ∨ n = 3 ∨ n = 4) ∧ validUtf8 s = true
  | .unkVarint n _ => n ≠ 1 ∧ n ≠ 2 ∧ n ≠ 3 ∧ n ≠ 4
  | .unkFixed64 n bs => (n ≠ 1 ∧ n ≠ 2 ∧ n ≠ 3 ∧ n ≠ 4) ∧ bs.length = 8
  | .unkLen n _ => n ≠ 1 ∧ n ≠ 2 ∧ n ≠ 3 ∧ n ≠ 4
  | .unkFixed32 n bs => (n ≠ 1 ∧ n ≠ 2 ∧ n ≠ 3 ∧ n ≠ 4) ∧ bs.length = 4

instance : DecidablePred validItem := by
  intro it
  cases it <;> simp [validItem] <;> infer_instance

/-- The reference field semantics stated by the specification: a known string
field sets the corresponding record slot, any unknown field is ignored. -/
def applyItem (st : BookTicker) : EncItem → BookTicker
  | .str n s =>
    if n = 1 then { st with bidPrice := s }
    else if n = 2 then { st with bidQuantity := s }
    else if n = 3 then { st with askPrice := s }
    else if n = 4 then { st with askQuantity := s }
    else st
  | _ => st

theorem encItem_length_pos (it : EncItem) : 1 ≤ (encItem it).length := by
  cases it with
  | str n s =>
    have := encodeVarint_length_pos (n * 8 + 2)
    simp only [encItem, encKey, List.length_append]
    omega
  | unkVarint n v =>
    have := encodeVarint_length_pos (n * 8 + 0)
    simp only [encItem, encKey, List.length_append]
    omega
  | unkFixed64 n bs =>
    have := encodeVarint_length_pos (n * 8 + 1)
    simp only [encItem, encKey, List.length_append]
    omega
  | unkLen n bs =>
    have := encodeVarint_length_pos (n * 8 + 2)
    simp only [encItem, encKey, List.length_append]
    omega
  | unkFixed32 n bs =>
    have := encodeVarint_length_pos (n * 8 + 5)
    simp only [encItem, encKey, List.length_append]
    omega

theorem key_shiftRight (n w : Nat) (hw : w < 8) : (n * 8 + w) >>> 3 = n := by
  rw [Nat.shiftRight_eq_div_pow]
  norm_num
  omega

theorem key_and7 (n w : Nat) (hw : w < 8) : (n * 8 + w) &&& 7 = w := by
  have h : (7 : Nat) = 2 ^ 3 - 1 := by norm_num
  rw [h, Nat.and_pow_two_sub_one_eq_mod]
  norm_num
  omega

theorem readString_encode (pre post s : List Nat) (hs : validUtf8 s = true) :
    readString (pre ++ (encodeVarint s.length ++ s) ++ post) pre.length
      = (s, pre.length + (encodeVarint s.length).length + s.length) := by
  unfold readString
  have hv : readVarint (pre ++ (encodeVarint s.length ++ s) ++ post) pre.length
      = (s.length, pre.length + (encodeVarint s.length).length) := by
    have := readVarint_encode pre (s ++ post) s.length
    rw [show pre ++ (encodeVarint s.length ++ s) ++ post
          = pre ++ encodeVarint s.length ++ (s ++ post) by simp] at *
    exact this
  rw [hv]
  unfold readStringAfterLen
  have hlen : (pre ++ (encodeVarint s.length ++ s) ++ post).length
      = pre.length + ((encodeVarint s.length).length + s.length) + post.length := by
    simp
    omega
  have hcut : ¬ (pre.length + (encodeVarint s.length).length + s.length
      > (pre ++ (encodeVarint s.length ++ s) ++ post).length) := by
    rw [hlen]; omega
  rw [if_neg hcut]
  have hdrop : (pre ++ (encodeVarint s.length ++ s) ++ post).drop
      (pre.length + (encodeVarint s.length).length) = s ++ post := by
    rw [show pre ++ (encodeVarint s.length ++ s) ++ post
          = (pre ++ encodeVarint s.length) ++ (s ++ post) by simp]
    exact List.drop_left' (by simp)
  rw [hdrop, List.take_left' rfl, if_pos hs]

theorem parseLoopF_succ_pos (data : List Nat) (fuel pos : Nat) (st : BookTicker)
    (h : pos < data.length) :
    parseLoopF data (fuel + 1) pos st =
      (if (readVarint data pos).1 >>> 3 == 1 then
        parseLoopF data fuel (readString data (readVarint data pos).2).2
          { st with bidPrice := (readString data (readVarint data pos).2).1 }
      else if (readVarint data pos).1 >>> 3 == 2 then
        parseLoopF data fuel (readString data (readVarint data pos).2).2
          { st with bidQuantity := (readString data (readVarint data pos).2).1 }
      else if (readVarint data pos).1 >>> 3 == 3 then
        parseLoopF data fuel (readString data (readVarint data pos).2).2
          { st with askPrice := (readString data (readVarint data pos).2).1 }
      else if (readVarint data pos).1 >>> 3 == 4 then
        parseLoopF data fuel (readString data (readVarint data pos).2).2
          { st with askQuantity := (readString data (readVarint data pos).2).1 }
      else parseLoopF data fuel
        (skipField data (readVarint data pos).2 ((readVarint data pos).1 &&& 7)) st) := by
  rw [parseLoopF, if_pos h]

theorem parse_step (it : EncItem) (hit : validItem it) (pre rest : List Nat)
    (st : BookTicker) (fuel : Nat) :
    parseLoopF (pre ++ encItem it ++ rest) (fuel + 1) pre.length st
      = parseLoopF (pre ++ encItem it ++ rest) fuel
          (pre.length + (encItem it).length) (applyItem st it) := by
  have hpos : pre.length < (pre ++ encItem it ++ rest).length := by
    have := encItem_length_pos it
    simp
    omega
  rw [parseLoopF_succ_pos _ _ _ _ hpos]
  cases it with
  | str n s =>
    obtain ⟨hn, hs⟩ := hit
    have hkey : readVarint (pre ++ encItem (.str n s) ++ rest) pre.length
        = (n * 8 + 2, pre.length + (encodeVarint (n * 8 + 2)).length) := by
      have := readVarint_encode pre ((encodeVarint s.length ++ s) ++ rest) (n * 8 + 2)
      rw [show pre ++ encItem (.str n s) ++ rest
            = pre ++ encodeVarint (n * 8 + 2) ++ ((encodeVarint s.length ++ s) ++ rest) by
          simp [encItem, encKey]] at *
      exact this
    have hrs : readString (pre ++ encItem (.str n s) ++ rest)
        (pre.length + (encodeVarint (n * 8 + 2)).length)
        = (s, pre.length + (encodeVarint (n * 8 + 2)).length
              + (encodeVarint s.length).length + s.length) := by
      have := readString_encode (pre ++ encKey n 2) rest s hs
      rw [show (pre ++ encKey n 2) ++ (encodeVarint s.length ++ s) ++ rest
            = pre ++ encItem (.str n s) ++ rest by simp [encItem, encKey]] at this
      rw [show (pre ++ encKey n 2).length = pre.length + (encodeVarint (n * 8 + 2)).length by
            simp [encKey]] at this
      exact this
    have hlen : pre.length + (encodeVarint (n * 8 + 2)).length
        + (encodeVarint s.length).length + s.length
        = pre.length + (encItem (.str n s)).length := by
      simp [encItem, encKey]
      omega
    rw [hkey]
    simp only [Prod.fst, Prod.snd]
    have h83 := key_shiftRight n 2 (by omega)
    rcases hn with h1 | h2 | h3 | h4
    · subst h1
      simp only [h83, show ((1 : Nat) == 1) = true by decide, if_pos, if_true]
      rw [hrs, hlen]
      rfl
    · subst h2
      simp only [h83, show ((2 : Nat) == 1) = false by decide,
        show ((2 : Nat) == 2) = true by decide, Bool.false_eq_true, if_false, if_true]
      rw [hrs, hlen]
      rfl
    · subst h3
      simp only [h83, show ((3 : Nat) == 1) = false by decide,
        show ((3 : Nat) == 2) = false by decide, show ((3 : Nat) == 3) = true by decide,
        Bool.false_eq_true, if_false, if_true]
      rw [hrs, hlen]
      rfl
    · subst h4
      simp only [h83, show ((4 : Nat) == 1) = false by decide,
        show ((4 : Nat) == 2) = false by decide, show ((4 : Nat) == 3) = false by decide,
        show ((4 : Nat) == 4) = true by decide, Bool.false_eq_true, if_false, if_true]
      rw [hrs, hlen]
      rfl
  | unkVarint n v =>
    obtain ⟨hn1, hn2, hn3, hn4⟩ := hit
    have hkey : readVarint (pre ++ encItem (.unkVarint n v) ++ rest) pre.length
        = (n * 8 + 0, pre.length + (encodeVarint (n * 8 + 0)).length) := by
      have := readVarint_encode pre (encodeVarint v ++ rest) (n * 8 + 0)
      rw [show pre ++ encItem (.unkVarint n v) ++ rest
            = pre ++ encodeVarint (n * 8 + 0) ++ (encodeVarint v ++ rest) by
          simp [encItem, encKey]] at *
      exact this
    have hsk : skipField (pre ++ encItem (.unkVarint n v) ++ rest)
        (pre.length + (encodeVarint (n * 8 + 0)).length) 0
        = pre.length + (encItem (.unkVarint n v)).length := by
      unfold skipField
      rw [if_pos (show ((0 : Nat) == 0) = true from rfl)]
      have := readVarint_encode (pre ++ encKey n 0) rest v
      rw [show (pre ++ encKey n 0) ++ encodeVarint v ++ rest
            = pre ++ encItem (.unkVarint n v) ++ rest by simp [encItem, encKey]] at this
      rw [show (pre ++ encKey n 0).length = pre.length + (encodeVarint (n * 8 + 0)).length by
            simp [encKey]] at this
      rw [this]
      simp [encItem, encKey]
      omega
    rw [hkey]
    simp only [Prod.fst, Prod.snd, key_shiftRight n 0 (by omega), key_and7 n 0 (by omega)]
    rw [if_neg (by simp [hn1]), if_neg (by simp [hn2]), if_neg (by simp [hn3]),
      if_neg (by simp [hn4]), hsk]
    rfl
  | unkFixed64 n bs =>
    obtain ⟨⟨hn1, hn2, hn3, hn4⟩, hbs⟩ := hit
    have hkey : readVarint (pre ++ encItem (.unkFixed64 n bs) ++ rest) pre.length
        = (n * 8 + 1, pre.length + (encodeVarint (n * 8 + 1)).length) := by
      have := readVarint_encode pre (bs ++ rest) (n * 8 + 1)
      rw [show pre ++ encItem (.unkFixed64 n bs) ++ rest
            = pre ++ encodeVarint (n * 8 + 1) ++ (bs ++ rest) by simp [encItem, encKey]] at *
      exact this
    have hsk : skipField (pre ++ encItem (.unkFixed64 n bs) ++ rest)
        (pre.length + (encodeVarint (n * 8 + 1)).length) 1
        = pre.length + (encItem (.unkFixed64 n bs)).length := by
      unfold skipField
      rw [if_neg (by decide), if_neg (by decide), if_pos (show ((1 : Nat) == 1) = true from rfl)]
      simp [encItem, encKey, hbs]
      omega
    rw [hkey]
    simp only [Prod.fst, Prod.snd, key_shiftRight n 1 (by omega), key_and7 n 1 (by omega)]
    rw [if_neg (by simp [hn1]), if_neg (by simp [hn2]), if_neg (by simp [hn3]),
      if_neg (by simp [hn4]), hsk]
    rfl
  | unkLen n bs =>
    obtain ⟨hn1, hn2, hn3, hn4⟩ := hit
    have hkey : readVarint (pre ++ encItem (.unkLen n bs) ++ rest) pre.length
        = (n * 8 + 2, pre.length + (encodeVarint (n * 8 + 2)).length) := by
      have := readVarint_encode pre ((encodeVarint bs.length ++ bs) ++ rest) (n * 8 + 2)
      rw [show pre ++ encItem (.unkLen n bs) ++ rest
            = pre ++ encodeVarint (n * 8 + 2) ++ ((encodeVarint bs.length ++ bs) ++ rest) by
          simp [encItem, encKey]] at *
      exact this
    have hsk : skipField (pre ++ encItem (.unkLen n bs) ++ rest)
        (pre.length + (encodeVarint (n * 8 + 2)).length) 2
        = pre.length + (encItem (.unkLen n bs)).length := by
      unfold skipField
      rw [if_neg (by decide), if_pos (show ((2 : Nat) == 2) = true from rfl)]
      have := readVarint_encode (pre ++ encKey n 2) (bs ++ rest) bs.length
      rw [show (pre ++ encKey n 2) ++ encodeVarint bs.length ++ (bs ++ rest)
            = pre ++ encItem (.unkLen n bs) ++ rest by simp [encItem, encKey]] at this
      rw [show (pre ++ encKey n 2).length = pre.length + (encodeVarint (n * 8 + 2)).length by
            simp [encKey]] at this
      rw [this]
      simp [encItem, encKey]
      omega
    rw [hkey]
    simp only [Prod.fst, Prod.snd, key_shiftRight n 2 (by omega), key_and7 n 2 (by omega)]
    rw [if_neg (by simp [hn1]), if_neg (by simp [hn2]), if_neg (by simp [hn3]),
      if_neg (by simp [hn4]), hsk]
    rfl
  | unkFixed32 n bs =>
    obtain ⟨⟨hn1, hn2, hn3, hn4⟩, hbs⟩ := hit
    have hkey : readVarint (pre ++ encItem (.unkFixed32 n bs) ++ rest) pre.length
        = (n * 8 + 5, pre.length + (encodeVarint (n * 8 + 5)).length) := by
      have := readVarint_encode pre (bs ++ rest) (n * 8 + 5)
      rw [show pre ++ encItem (.unkFixed32 n bs) ++ rest
            = pre ++ encodeVarint (n * 8 + 5) ++ (bs ++ rest) by simp [encItem, encKey]] at *
      exact this
    have hsk : skipField (pre ++ encItem (.unkFixed32 n bs) ++ rest)
        (pre.length + (encodeVarint (n * 8 + 5)).length) 5
        = pre.length + (encItem (.unkFixed32 n bs)).length := by
      unfold skipField
      rw [if_neg (by decide), if_neg (by decide), if_neg (by decide),
        if_pos (show ((5 : Nat) == 5) = true from rfl)]
      simp [encItem, encKey, hbs]
      omega
    rw [hkey]
    simp only [Prod.fst, Prod.snd, key_shiftRight n 5 (by omega), key_and7 n 5 (by omega)]
    rw [if_neg (by simp [hn1]), if_neg (by simp [hn2]), if_neg (by simp [hn3]),
      if_neg (by simp [hn4]), hsk]
    rfl

theorem parse_items (items : List EncItem) :
    ∀ (pre : List Nat) (st : BookTicker) (fuel : Nat),
      (∀ it ∈ items, validItem it) → items.length ≤ fuel →
      parseLoopF (pre ++ encodeItems items) fuel pre.length st
        = some (items.foldl applyItem st) := by
  induction items with
  | nil =>
    intro pre st fuel _ _
    have hpos : ¬ pre.length < (pre ++ encodeItems []).length := by
      simp [encodeItems]
    cases fuel with
    | zero => rw [parseLoopF, if_neg hpos]; rfl
    | succ f => rw [parseLoopF, if_neg hpos]; rfl
  | cons it items ih =>
    intro pre st fuel hv hf
    obtain ⟨f, rfl⟩ : ∃ f, fuel = f + 1 := ⟨fuel - 1, by simp at hf; omega⟩
    have hdata : pre ++ encodeItems (it :: items) = pre ++ encItem it ++ encodeItems items := by
      simp [encodeItems]
    rw [hdata, parse_step it (hv it (by simp)) pre (encodeItems items) st f]
    have hrec := ih (pre ++ encItem it) (applyItem st it) f
      (fun x hx => hv x (by simp [hx])) (by simp at hf; omega)
    simp only [List.append_assoc, List.length_append] at hrec
    simpa using hrec

theorem length_le_encodeItems (items : List EncItem) :
    items.length ≤ (encodeItems items).length := by
  induction items with
  | nil => simp [encodeItems]
  | cons it items ih =>
    have h1 := encItem_length_pos it
    simp only [encodeItems, List.map_cons, List.flatten_cons, List.length_append,
      List.length_cons] at ih ⊢
    omega

/-- C3: every syntactically valid frame produced by the reference protobuf
encoder over the book-ticker schema (fields 1–4 length-delimited UTF-8
strings, keys as varints with fieldNumber = key >> 3, wireType = key & 0x7)
is decoded by ParseFromString back to exactly the encoded field values, and
every unknown field (of varint, 8-byte, length-delimited or 4-byte wire
type) is skipped length-correctly, leaving subsequent fields intact. -/
theorem claim_C3_roundtrip (items : List EncItem) (hv : ∀ it ∈ items, validItem it) :
    ParseFromString (encodeItems items) = (items.foldl applyItem initBookTicker, true) := by
  unfold ParseFromString
  have := parse_items items [] initBookTicker (encodeItems items).length hv
    (length_le_encodeItems items)
  simp only [List.nil_append, List.length_nil] at this
  rw [this]

/-- Witness for C3: a concrete frame interleaving all four known string
fields with unknown fields of all four wire types decodes to exactly the
encoded values. -/
theorem claim_C3_roundtrip_witness :
    (∀ it ∈ ([.str 1 [53, 46, 49], .unkVarint 7 300, .str 3 [54, 48],
              .unkFixed64 9 [1, 2, 3, 4, 5, 6, 7, 8], .unkLen 6 [255, 0],
              .unkFixed32 8 [9, 9, 9, 9], .str 2 [50], .str 4 [51]] : List EncItem),
        validItem it)
    ∧ ParseFromString (encodeItems
        [.str 1 [53, 46, 49], .unkVarint 7 300, .str 3 [54, 48],
         .unkFixed64 9 [1, 2, 3, 4, 5, 6, 7, 8], .unkLen 6 [255, 0],
         .unkFixed32 8 [9, 9, 9, 9], .str 2 [50], .str 4 [51]])
      = ({ bidPrice := [53, 46, 49], bidQuantity := [50],
           askPrice := [54, 48], askQuantity := [51] }, true) := by
  constructor
  · decide
  · rw [claim_C3_roundtrip _ (by decide)]
    decide

/-- C9: ParseFromString terminates on every input byte sequence: whenever
position < frame length the field-header varint consumes at least one byte,
so the loop completes within data.length iterations — fuel data.length - pos
is always sufficient, for every wire type including unknown ones. -/
theorem claim_C9_parse_terminates (data : List Nat) :
    (∀ pos, pos < data.length → pos + 1 ≤ (readVarint data pos).2)
    ∧ (∀ fuel pos st, data.length - pos ≤ fuel → (parseLoopF data fuel pos st).isSome = true)
    ∧ (parseLoopF data data.length 0 initBookTicker).isSome = true :=
  ⟨fun pos h => readVarint_pos_lt data pos h,
   fun fuel pos st h => parseLoopF_isSome data fuel pos st h,
   parseLoopF_isSome data data.length 0 initBookTicker (by omega)⟩

/-- Witness for C9 at a concrete frame (a truncated length-delimited field
followed by an unknown wire type would loop forever if iterations could
fail to advance; here the loop provably completes). -/
theorem claim_C9_parse_terminates_witness :
    (0 < ([10, 5, 59] : List Nat).length → 0 + 1 ≤ (readVarint [10, 5, 59] 0).2)
    ∧ (parseLoopF [10, 5, 59] 3 0 initBookTicker).isSome = true := by
  have h := claim_C9_parse_terminates [10, 5, 59]
  exact ⟨fun hh => h.1 0 hh, h.2.1 3 0 initBookTicker (by decide)⟩

theorem ParseFromString_snd_true (d : List Nat) : (ParseFromString d).2 = true := by
  unfold ParseFromString
  have h := parseLoopF_isSome d d.length 0 initBookTicker (by omega)
  cases hp : parseLoopF d d.length 0 initBookTicker with
  | none => rw [hp] at h; simp at h
  | some st => rfl

/-- Counterexample for C2: a frame declaring a 5-byte payload for field 1
with no payload bytes at all is NOT rejected: ParseFromString reports
success (True) and substitutes the empty string for bidPrice — there is no
DecodeError of any kind in the code. -/
theorem claim_C2_counterexample :
    (ParseFromString [10, 5]).2 = true ∧ (ParseFromString [10, 5]).1.bidPrice = [] := by
  decide

/-- C2 (amended): when a length-delimited payload would read past the frame
boundary, _read_string raises no error: it returns the empty string without
advancing past the length varint, parsing continues and ParseFromString
returns success for every input frame (the decoder has no failure path for
truncation; nothing propagates to the caller). -/
theorem claim_C2_truncation_no_error (data : List Nat) (pos : Nat)
    (h : data.length < (readVarint data pos).2 + (readVarint data pos).1) :
    readString data pos = ([], (readVarint data pos).2)
    ∧ ∀ d : List Nat, (ParseFromString d).2 = true := by
  constructor
  · unfold readString readStringAfterLen
    rw [if_pos (by omega)]
  · exact ParseFromString_snd_true

/-- Witness for C2 (amended) at the concrete truncated frame [10, 5]. -/
theorem claim_C2_truncation_no_error_witness :
    ([10, 5] : List Nat).length < (readVarint [10, 5] 1).2 + (readVarint [10, 5] 1).1
    ∧ readString [10, 5] 1 = ([], 2) := by
  refine ⟨by decide, ?_⟩
  have h := (claim_C2_truncation_no_error [10, 5] 1 (by decide)).1
  rw [h]
  decide

/-! ### Trade validation and row flattening, from mexc_multi_streamer.py.

A Deal carries the already-parsed numeric fields of one element of
wrapper.publicAggreDeals.deals (Python float() parse failures skip the deal
before validation and are outside this model); floats are modelled as exact
rationals.  parseDeal is the per-deal body of _parse_protobuf_message
(lines 100–126): validation `price > 0 and quantity > 0 and
price != quantity and abs(price - quantity) > 0.001`, and the timestamp
substitution `deal.time if deal.time > 0 else int(time.time() * 1000)`
with the wall clock passed in as now.  processTrade is the data_row built
by _process_trade (lines 190–201); the human-readable datetime string is
presentation only and not modelled. -/

structure Deal where
  price : ℚ
  quantity : ℚ
  tradeType : Nat
  time : Int
deriving DecidableEq

structure TradeRec where
  price : ℚ
  quantity : ℚ
  tradeType : Nat
  symbol : String
  channel : String
  timestamp : Int
deriving DecidableEq

def validDeal (price quantity : ℚ) : Bool :=
  decide (0 < price) && decide (0 < quantity) && decide (price ≠ quantity)
    && decide (1 / 1000 < |price - quantity|)

def parseDeal (d : Deal) (symbol channel : String) (now : Int) : Option TradeRec :=
  if validDeal d.price d.quantity then
    some { price := d.price, quantity := d.quantity, tradeType := d.tradeType,
           symbol := symbol, channel := channel,
           timestamp := if 0 < d.time then d.time else now }
  else none

structure TradeRow where
  timestamp : Int
  symbol : String
  price : ℚ
  quantity : ℚ
  tradeType : Nat
  tradeTypeStr : String
  channel : String
  eventType : String
deriving DecidableEq

def processTrade (t : TradeRec) : TradeRow :=
  { timestamp := t.timestamp, symbol := t.symbol, price := t.price,
    quantity := t.quantity, tradeType := t.tradeType,
    tradeTypeStr := if t.tradeType == 1 then "BUY" else "SELL",
    channel := t.channel,
    eventType := "spot@public.aggre.deals.v3.api.pb@100ms" }

/-! ### Ticker validation, from mexc_bookticker_streamer.py lines 88–115.
The four rationals are the float() results (empty decoded strings become
0.0 in the Python code, so every input is covered by a rational). -/

structure TickerRec where
  symbol : String
  bid_price : ℚ
  bid_quantity : ℚ
  ask_price : ℚ
  ask_quantity : ℚ
  spread : ℚ
  spread_percent : ℚ
  channel : String
  timestamp : Nat
deriving DecidableEq

def tickerSpread (bid_price ask_price : ℚ) : ℚ :=
  if 0 < ask_price ∧ 0 < bid_price then ask_price - bid_price else 0

def tickerSpreadPercent (bid_price spread : ℚ) : ℚ :=
  if 0 < bid_price then spread / bid_price * 100 else 0

def parseTickerMsg (bid_price bid_quantity ask_price ask_quantity : ℚ)
    (symbol channel : String) (sendTime : Nat) : Option TickerRec :=
  if 0 < bid_price ∧ 0 < ask_price ∧ 0 < bid_quantity ∧ 0 < ask_quantity then
    some { symbol := symbol, bid_price := bid_price, bid_quantity := bid_quantity,
           ask_price := ask_price, ask_quantity := ask_quantity,
           spread := tickerSpread bid_price ask_price,
           spread_percent := tickerSpreadPercent bid_price (tickerSpread bid_price ask_price),
           channel := channel, timestamp := sendTime }
  else none

/-! ### Symbol routing, from _on_message in mexc_multi_streamer.py
(lines 164–178).  self.symbols is built at startup as
[s.upper() for s in SYMBOLS]; each parsed trade is kept only if its symbol
is truthy (non-empty) and a member of that list, and is then appended to
that exact symbol's buffer.  The intermediate trades_by_symbol dict
preserves per-symbol insertion order, so folding the appends directly over
the trade list reaches the identical buffer state. -/

def pyUpper (s : String) : String := String.mk (s.data.map Char.toUpper)

def routeStep (symbols : List String) (bufs : String → List TradeRec) (t : TradeRec) :
    String → List TradeRec :=
  if t.symbol ≠ "" ∧ t.symbol ∈ symbols then
    Function.update bufs t.symbol (bufs t.symbol ++ [t])
  else bufs

def routeAll (symbols : List String) (bufs : String → List TradeRec)
    (trades : List TradeRec) : String → List TradeRec :=
  trades.foldl (routeStep symbols) bufs

/-! ### The per-symbol buffer protocol of mexc_multi_streamer.py, viewed
from one instrument.  Every mutation of trade_data_buffers[symbol] and
total_trades[symbol] happens inside `with self.buffer_locks[symbol]`
(_on_message lines 176–178 for appends, save_data_to_csv lines 244–267 for
the drain), so a concurrent history is a sequence of atomic operations:
append (a _process_trade call), save ok (the CSV write succeeds and the
buffer is cleared; the written batch is recorded in drained), save failed
(the write raises before clear, leaving the buffer untouched), and stats (a
read-only statistics pass).  Empty buffers are skipped by the
`if self.trade_data_buffers[symbol]:` guard. -/

inductive BufOp where
  | append (r : TradeRow)
  | save (ok : Bool)
  | stats
deriving DecidableEq

structure BufState where
  buffer : List TradeRow := []
  drained : List (List TradeRow) := []
  total : Nat := 0
deriving DecidableEq

def bufStep (st : BufState) : BufOp → BufState
  | .append r => { st with buffer := st.buffer ++ [r], total := st.total + 1 }
  | .save ok =>
    if st.buffer = [] then st
    else if ok then { st with buffer := [], drained := st.drained ++ [st.buffer] }
    else st
  | .stats => st

def bufRun (ops : List BufOp) : BufState := ops.foldl bufStep {}

def appendsOf (ops : List BufOp) : List TradeRow :=
  ops.filterMap fun op => match op with | .append r => some r | _ => none

/-! ### The save_data_to_csv loop over all symbols (lines 239–274).
The whole `for symbol in self.symbols` loop sits in one try/except: a
failing CSV append for some symbol aborts the remaining iterations and is
swallowed by the except, and since the buffer clear comes after the write,
the failed symbol's batch stays in its live buffer.  The sink is modelled
as an atomic per-batch success predicate. -/

structure SinkState where
  buffers : String → List TradeRow
  persisted : String → List TradeRow

def saveDataToCsv (sinkOk : String → List TradeRow → Bool) :
    List String → SinkState → SinkState
  | [], st => st
  | s :: rest, st =>
    if st.buffers s = [] then saveDataToCsv sinkOk rest st
    else if sinkOk s (st.buffers s) then
      saveDataToCsv sinkOk rest
        { buffers := Function.update st.buffers s [],
          persisted := Function.update st.persisted s (st.persisted s ++ st.buffers s) }
    else st

/-! ### Claim theorems for validation, routing, buffering and persistence -/

/-- C4: a decoded deal is accepted iff price and quantity are both strictly
positive, price is not exactly equal to quantity, and their absolute
difference exceeds 0.001; the accepted row is labelled BUY iff
tradeType = 1 and SELL otherwise; the deals (5.0, 5.0) and (5.0005, 5.0)
are both rejected. -/
theorem claim_C4_trade_validation (p q : ℚ) (tt : Nat) (tm : Int)
    (sym ch : String) (now : Int) :
    ((parseDeal ⟨p, q, tt, tm⟩ sym ch now).isSome = true
        ↔ (0 < p ∧ 0 < q ∧ p ≠ q ∧ 1 / 1000 < |p - q|))
    ∧ (∀ r, parseDeal ⟨p, q, tt, tm⟩ sym ch now = some r →
        (((processTrade r).tradeTypeStr = "BUY" ↔ tt = 1)
          ∧ (tt ≠ 1 → (processTrade r).tradeTypeStr = "SELL")))
    ∧ parseDeal ⟨5, 5, tt, tm⟩ sym ch now = none
    ∧ parseDeal ⟨10001 / 2000, 5, tt, tm⟩ sym ch now = none := by
  refine ⟨?_, ?_, ?_, ?_⟩
  · unfold parseDeal validDeal
    split
    · next hv =>
      simp only [Option.isSome_some, true_iff]
      simp only [Bool.and_eq_true, decide_eq_true_eq] at hv
      tauto
    · next hv =>
      simp only [Option.isSome_none, Bool.false_eq_true, false_iff]
      simp only [Bool.and_eq_true, decide_eq_true_eq] at hv
      tauto
  · intro r hr
    unfold parseDeal at hr
    split at hr
    · have hrt : r.tradeType = tt := by
        cases hr
        rfl
      have hstr : (processTrade r).tradeTypeStr = if tt == 1 then "BUY" else "SELL" := by
        simp [processTrade, hrt]
      rw [hstr]
      by_cases ht : tt = 1
      · subst ht
        simp
      · have hbeq : (tt == 1) = false := by simp [ht]
        rw [hbeq]
        simp only [Bool.false_eq_true, if_false]
        exact ⟨⟨fun hb => absurd hb (by decide), fun h1 => absurd h1 ht⟩, fun _ => by trivial⟩
    · exact absurd hr (by simp)
  · unfold parseDeal
    rw [if_neg ?hc5]
    case hc5 =>
      unfold validDeal
      simp only [Bool.and_eq_true, decide_eq_true_eq]
      intro hx
      exact hx.1.2 rfl
  · unfold parseDeal
    rw [if_neg ?hc55]
    case hc55 =>
      unfold validDeal
      simp only [Bool.and_eq_true, decide_eq_true_eq]
      intro hx
      have h2 := hx.2
      have habs : |(10001 : ℚ) / 2000 - 5| = 1 / 2000 := by
        rw [show (10001 : ℚ) / 2000 - 5 = 1 / 2000 by norm_num]
        exact abs_of_pos (by norm_num)
      rw [habs] at h2
      norm_num at h2

/-- Witness for C4: the deal (100, 2, BUY) is accepted, labelled BUY, and
the two degenerate deals from the claim are rejected. -/
theorem claim_C4_trade_validation_witness :
    (parseDeal ⟨100, 2, 1, 5⟩ "BTCUSDT" "ch" 7).isSome = true
    ∧ parseDeal ⟨5, 5, 1, 5⟩ "BTCUSDT" "ch" 7 = none
    ∧ parseDeal ⟨10001 / 2000, 5, 2, 0⟩ "BTCUSDT" "ch" 7 = none := by
  refine ⟨?_, (claim_C4_trade_validation 5 5 1 5 "BTCUSDT" "ch" 7).2.2.1,
    (claim_C4_trade_validation (10001 / 2000) 5 2 0 "BTCUSDT" "ch" 7).2.2.2⟩
  apply (claim_C4_trade_validation 100 2 1 5 "BTCUSDT" "ch" 7).1.mpr
  refine ⟨by norm_num, by norm_num, by norm_num, ?_⟩
  rw [show (100 : ℚ) - 2 = 98 by norm_num, abs_of_pos (by norm_num)]
  norm_num

/-- C10: an accepted deal whose time field is strictly positive keeps that
time as the buffered timestamp; with time zero or negative the deal is
still accepted (acceptance is independent of the time field) and the
timestamp is replaced by the wall clock in milliseconds, which
_process_trade copies unchanged into the stored row. -/
theorem claim_C10_timestamp (p q : ℚ) (tt : Nat) (tm : Int) (sym ch : String)
    (now : Int) (r : TradeRec)
    (h : parseDeal ⟨p, q, tt, tm⟩ sym ch now = some r) :
    (0 < tm → r.timestamp = tm)
    ∧ (tm ≤ 0 → r.timestamp = now)
    ∧ (processTrade r).timestamp = r.timestamp
    ∧ ((parseDeal ⟨p, q, tt, tm⟩ sym ch now).isSome = true
        ↔ (parseDeal ⟨p, q, tt, 0⟩ sym ch now).isSome = true) := by
  unfold parseDeal at h ⊢
  split at h
  · next hv =>
    cases h
    refine ⟨?_, ?_, rfl, ?_⟩
    · intro htm
      show (if 0 < tm then tm else now) = tm
      rw [if_pos htm]
    · intro htm
      show (if 0 < tm then tm else now) = now
      rw [if_neg (by omega)]
    · simp only at hv
      simp [hv]
  · exact absurd h (by simp)

/-- Witness for C10: a concrete accepted deal with feed time 5 keeps
timestamp 5; the same deal with time 0 is still accepted and takes the
wall-clock value 777. -/
theorem claim_C10_timestamp_witness :
    parseDeal ⟨100, 2, 1, 5⟩ "BTCUSDT" "ch" 777
      = some { price := 100, quantity := 2, tradeType := 1, symbol := "BTCUSDT",
               channel := "ch", timestamp := 5 }
    ∧ ({ price := 100, quantity := 2, tradeType := 1, symbol := "BTCUSDT",
         channel := "ch", timestamp := 5 } : TradeRec).timestamp = 5
    ∧ parseDeal ⟨100, 2, 1, 0⟩ "BTCUSDT" "ch" 777
      = some { price := 100, quantity := 2, tradeType := 1, symbol := "BTCUSDT",
               channel := "ch", timestamp := 777 } := by
  have hval : validDeal 100 2 = true := by
    unfold validDeal
    have habs : |(100 : ℚ) - 2| = 98 := by
      rw [show (100 : ℚ) - 2 = 98 by norm_num]
      exact abs_of_pos (by norm_num)
    simp only [habs]
    norm_num
  have h1 : parseDeal ⟨100, 2, 1, 5⟩ "BTCUSDT" "ch" 777
      = some { price := 100, quantity := 2, tradeType := 1, symbol := "BTCUSDT",
               channel := "ch", timestamp := 5 } := by
    unfold parseDeal
    rw [if_pos hval]
    norm_num
  have h0 : parseDeal ⟨100, 2, 1, 0⟩ "BTCUSDT" "ch" 777
      = some { price := 100, quantity := 2, tradeType := 1, symbol := "BTCUSDT",
               channel := "ch", timestamp := 777 } := by
    unfold parseDeal
    rw [if_pos hval]
    norm_num
  exact ⟨h1, (claim_C10_timestamp 100 2 1 5 "BTCUSDT" "ch" 777 _ h1).1 (by norm_num), h0⟩

/-- Counterexample for C5: the code computes
spread = ask - bid if ask > 0 and bid > 0 else 0.0, guarded only by the two
prices, not by the full four-way positivity precondition.  With bid = 100,
ask = 101 but bidQuantity = 0 the precondition fails yet the computed
spread is 1.0, not the claimed default 0.0 (no record is produced). -/
theorem claim_C5_counterexample :
    ¬ (0 < (100 : ℚ) ∧ 0 < (101 : ℚ) ∧ 0 < (0 : ℚ) ∧ 0 < (1 : ℚ))
    ∧ tickerSpread 100 101 = 1
    ∧ (1 : ℚ) ≠ 0
    ∧ parseTickerMsg 100 0 101 1 "ETHUSDT" "ch" 0 = none := by
  refine ⟨by norm_num, ?_, by norm_num, ?_⟩
  · unfold tickerSpread
    rw [if_pos (by norm_num)]
    norm_num
  · unfold parseTickerMsg
    rw [if_neg (by norm_num)]

/-- C5 (amended): a ticker record is produced iff all four of bid price,
bid quantity, ask price, ask quantity are strictly positive; every produced
record carries spread = askPrice - bidPrice and
spreadPercent = spread / bidPrice * 100; internally spread defaults to 0.0
exactly when NOT (askPrice > 0 and bidPrice > 0) and spreadPercent defaults
to 0.0 exactly when bidPrice is not positive (guards weaker than the full
four-way precondition); the instance bid 100 / bidQty 1 / ask 101 / askQty 1
yields spread 1.0 and spreadPercent 1.0. -/
theorem claim_C5_ticker (bid bidQ ask askQ : ℚ) (sym ch : String) (tme : Nat) :
    ((parseTickerMsg bid bidQ ask askQ sym ch tme).isSome = true
        ↔ (0 < bid ∧ 0 < ask ∧ 0 < bidQ ∧ 0 < askQ))
    ∧ (∀ r, parseTickerMsg bid bidQ ask askQ sym ch tme = some r →
        r.spread = ask - bid ∧ r.spread_percent = (ask - bid) / bid * 100)
    ∧ (¬ (0 < ask ∧ 0 < bid) → tickerSpread bid ask = 0)
    ∧ (∀ sp : ℚ, ¬ 0 < bid → tickerSpreadPercent bid sp = 0)
    ∧ (∀ r, parseTickerMsg 100 1 101 1 sym ch tme = some r →
        r.spread = 1 ∧ r.spread_percent = 1) := by
  refine ⟨?_, ?_, ?_, ?_, ?_⟩
  · unfold parseTickerMsg
    split
    · next hv => simpa using hv
    · next hv => simpa using hv
  · intro r hr
    unfold parseTickerMsg at hr
    split at hr
    · next hv =>
      cases hr
      constructor
      · show tickerSpread bid ask = ask - bid
        unfold tickerSpread
        rw [if_pos ⟨hv.2.1, hv.1⟩]
      · show tickerSpreadPercent bid (tickerSpread bid ask) = (ask - bid) / bid * 100
        unfold tickerSpreadPercent tickerSpread
        rw [if_pos hv.1, if_pos ⟨hv.2.1, hv.1⟩]
    · exact absurd hr (by simp)
  · intro hng
    unfold tickerSpread
    rw [if_neg hng]
  · intro sp hnb
    unfold tickerSpreadPercent
    rw [if_neg hnb]
  · intro r hr
    unfold parseTickerMsg at hr
    split at hr
    · next hv =>
      cases hr
      have hsp : tickerSpread 100 101 = 1 := by
        unfold tickerSpread
        rw [if_pos (by norm_num)]
        norm_num
      refine ⟨hsp, ?_⟩
      show tickerSpreadPercent 100 (tickerSpread 100 101) = 1
      rw [hsp]
      unfold tickerSpreadPercent
      rw [if_pos (by norm_num)]
      norm_num
    · exact absurd hr (by simp)

/-- Witness for C5 (amended): the concrete ticker 100 / 1 / 101 / 1 is
accepted and carries spread 1 and spreadPercent 1. -/
theorem claim_C5_ticker_witness :
    (parseTickerMsg 100 1 101 1 "ETHUSDT" "ch" 9).isSome = true
    ∧ tickerSpread 100 101 = 1
    ∧ tickerSpreadPercent 100 (tickerSpread 100 101) = 1 := by
  have h := claim_C5_ticker 100 1 101 1 "ETHUSDT" "ch" 9
  have hsome : parseTickerMsg 100 1 101 1 "ETHUSDT" "ch" 9
      = some { symbol := "ETHUSDT", bid_price := 100, bid_quantity := 1,
               ask_price := 101, ask_quantity := 1,
               spread := tickerSpread 100 101,
               spread_percent := tickerSpreadPercent 100 (tickerSpread 100 101),
               channel := "ch", timestamp := 9 } := by
    unfold parseTickerMsg
    rw [if_pos (by norm_num)]
  have hr := h.2.2.2.2 _ hsome
  exact ⟨h.1.mpr (by norm_num), hr.1, hr.2⟩

/-- Counterexample for C6: routing never normalizes the decoded symbol to
uppercase (only the configured set is uppercased, once, at startup).  With
configured set ["BTCUSDT"], a record decoded with symbol "btcusdt" should,
per the claim, be appended to the buffer of its normalized symbol
"BTCUSDT" — the code instead drops it: both the "BTCUSDT" buffer and the
"btcusdt" buffer stay empty (and no counter of unrecognized symbols exists
in the code to increment). -/
theorem claim_C6_counterexample :
    pyUpper "btcusdt" ∈ (["BTCUSDT"].map pyUpper)
    ∧ routeAll (["BTCUSDT"].map pyUpper) (fun _ => [])
        [{ price := 1, quantity := 2, tradeType := 1, symbol := "btcusdt",
           channel := "ch", timestamp := 0 }] "BTCUSDT" = []
    ∧ routeAll (["BTCUSDT"].map pyUpper) (fun _ => [])
        [{ price := 1, quantity := 2, tradeType := 1, symbol := "btcusdt",
           channel := "ch", timestamp := 0 }] "btcusdt" = [] := by
  refine ⟨by decide, ?_, ?_⟩ <;>
  · unfold routeAll
    simp only [List.foldl_cons, List.foldl_nil]
    unfold routeStep
    rw [if_neg (by decide)]

/-- C6 (amended): routing compares the decoded symbol verbatim against the
configured set (which was uppercased once at startup); a record reaches
buffer s exactly when its symbol equals s literally, s is non-empty and s
is configured — otherwise it is dropped silently (no counter, no error) and
lands in no buffer; records are appended only to their own symbol's buffer,
in arrival order. -/
theorem claim_C6_routing (configured : List String) (trades : List TradeRec) :
    ∀ (bufs : String → List TradeRec) (s : String),
      routeAll (configured.map pyUpper) bufs trades s
        = bufs s ++ (if s ≠ "" ∧ s ∈ configured.map pyUpper then
            trades.filter (fun t => t.symbol == s) else []) := by
  induction trades with
  | nil =>
    intro bufs s
    unfold routeAll
    split <;> simp
  | cons t trades ih =>
    intro bufs s
    show routeAll (configured.map pyUpper) (routeStep (configured.map pyUpper) bufs t) trades s = _
    rw [ih (routeStep (configured.map pyUpper) bufs t) s]
    unfold routeStep
    by_cases ht : t.symbol ≠ "" ∧ t.symbol ∈ configured.map pyUpper
    · rw [if_pos ht]
      by_cases hts : t.symbol = s
      · subst hts
        rw [Function.update_same, if_pos ht, if_pos ht]
        simp [List.filter_cons]
      · rw [Function.update_noteq (fun he => hts he.symm)]
        have hbeq : (t.symbol == s) = false := by simp [hts]
        by_cases hcond : s ≠ "" ∧ s ∈ configured.map pyUpper
        · rw [if_pos hcond, if_pos hcond]
          simp [List.filter_cons, hbeq]
        · rw [if_neg hcond, if_neg hcond]
    · rw [if_neg ht]
      by_cases hcond : s ≠ "" ∧ s ∈ configured.map pyUpper
      · rw [if_pos hcond, if_pos hcond]
        have hne : t.symbol ≠ s := fun he => ht (he ▸ hcond)
        have hbeq : (t.symbol == s) = false := by simp [hne]
        simp [List.filter_cons, hbeq]
      · rw [if_neg hcond, if_neg hcond]

theorem bufFold_conservation (ops : List BufOp) :
    ∀ st : BufState,
      (ops.foldl bufStep st).drained.flatten ++ (ops.foldl bufStep st).buffer
        = st.drained.flatten ++ st.buffer ++ appendsOf ops := by
  induction ops with
  | nil =>
    intro st
    simp [appendsOf]
  | cons op ops ih =>
    intro st
    rw [List.foldl_cons, ih (bufStep st op)]
    cases op with
    | append r =>
      simp [bufStep, appendsOf, List.filterMap_cons]
    | save ok =>
      simp only [bufStep]
      by_cases hb : st.buffer = []
      · rw [if_pos hb]
        simp [hb, appendsOf, List.filterMap_cons]
      · rw [if_neg hb]
        cases ok with
        | true =>
          simp [appendsOf, List.filterMap_cons]
        | false =>
          simp [appendsOf, List.filterMap_cons]
    | stats =>
      simp [bufStep, appendsOf, List.filterMap_cons]

/-- C1: for any sequence of append operations interleaved with drain (save)
operations on one instrument's buffer — each operation atomic under that
instrument's lock — the concatenation of all drained batches followed by
the final live buffer is exactly the sequence of appended records in
original append order: every record exactly once (so the multiset union
matches), order preserved within each drained batch and within the final
buffer, no record both drained and still buffered, none lost. -/
theorem claim_C1_buffer_conservation (ops : List BufOp) :
    (bufRun ops).drained.flatten ++ (bufRun ops).buffer = appendsOf ops := by
  have h := bufFold_conservation ops {}
  simpa [bufRun] using h

theorem bufFold_total_eq (ops : List BufOp) :
    ∀ st : BufState,
      (ops.foldl bufStep st).total
          + (st.drained.flatten.length + st.buffer.length)
        = st.total + ((ops.foldl bufStep st).drained.flatten.length
          + (ops.foldl bufStep st).buffer.length) := by
  induction ops with
  | nil => intro st; simp
  | cons op ops ih =>
    intro st
    rw [List.foldl_cons]
    have h := ih (bufStep st op)
    cases op with
    | append r =>
      simp only [bufStep] at h ⊢
      simp at h ⊢
      omega
    | save ok =>
      simp only [bufStep] at h ⊢
      by_cases hb : st.buffer = []
      · rw [if_pos hb] at h ⊢
        omega
      · rw [if_neg hb] at h ⊢
        cases ok with
        | true =>
          simp at h ⊢
          omega
        | false =>
          simp at h ⊢
          omega
    | stats =>
      simp only [bufStep] at h ⊢
      omega

theorem bufFold_total_mono (ops : List BufOp) :
    ∀ st : BufState, st.total ≤ (ops.foldl bufStep st).total := by
  induction ops with
  | nil => intro st; simp
  | cons op ops ih =>
    intro st
    rw [List.foldl_cons]
    refine le_trans ?_ (ih (bufStep st op))
    cases op with
    | append r => simp [bufStep]
    | save ok =>
      simp only [bufStep]
      by_cases hb : st.buffer = []
      · rw [if_pos hb]
      · rw [if_neg hb]
        cases ok <;> simp
    | stats => simp [bufStep]

/-- C7: the lifetime counter total_trades[symbol] is monotonically
non-decreasing under every operation (append, drain, statistics read) and
after every operation equals the number of records persisted so far (the
flattened drained batches) plus the number currently buffered. -/
theorem claim_C7_counter_invariant (ops : List BufOp) :
    (bufRun ops).total
        = (bufRun ops).drained.flatten.length + (bufRun ops).buffer.length
    ∧ (∀ pre suf, ops = pre ++ suf → (bufRun pre).total ≤ (bufRun ops).total) := by
  constructor
  · have h := bufFold_total_eq ops {}
    simp only [bufRun]
    simpa using h
  · intro pre suf hsplit
    subst hsplit
    unfold bufRun
    rw [List.foldl_append]
    exact bufFold_total_mono suf _

def sampleRow : TradeRow :=
  { timestamp := 5, symbol := "BTCUSDT", price := 100, quantity := 2,
    tradeType := 1, tradeTypeStr := "BUY", channel := "ch",
    eventType := "spot@public.aggre.deals.v3.api.pb@100ms" }

/-- Witness for C7 at the concrete history append-then-save. -/
theorem claim_C7_counter_invariant_witness :
    (bufRun [BufOp.append sampleRow, BufOp.save true]).total
        = (bufRun [BufOp.append sampleRow, BufOp.save true]).drained.flatten.length
          + (bufRun [BufOp.append sampleRow, BufOp.save true]).buffer.length
    ∧ (bufRun [BufOp.append sampleRow]).total
        ≤ (bufRun [BufOp.append sampleRow, BufOp.save true]).total := by
  have h := claim_C7_counter_invariant [BufOp.append sampleRow, BufOp.save true]
  exact ⟨h.1, h.2 [BufOp.append sampleRow] [BufOp.save true] rfl⟩

theorem saveDataToCsv_conserve (sinkOk : String → List TradeRow → Bool) :
    ∀ (symbols : List String) (st : SinkState) (s : String),
      (saveDataToCsv sinkOk symbols st).persisted s
          ++ (saveDataToCsv sinkOk symbols st).buffers s
        = st.persisted s ++ st.buffers s := by
  intro symbols
  induction symbols with
  | nil => intro st s; rfl
  | cons t rest ih =>
    intro st s
    show (saveDataToCsv sinkOk (t :: rest) st).persisted s
        ++ (saveDataToCsv sinkOk (t :: rest) st).buffers s = _
    rw [saveDataToCsv]
    by_cases hb : st.buffers t = []
    · rw [if_pos hb]
      exact ih st s
    · rw [if_neg hb]
      by_cases hok : sinkOk t (st.buffers t) = true
      · rw [if_pos hok, ih _ s]
        by_cases hts : s = t
        · subst hts
          simp [Function.update_same]
        · simp [Function.update_noteq hts]
      · rw [if_neg hok]

theorem saveDataToCsv_retain (sinkOk : String → List TradeRow → Bool) :
    ∀ (symbols : List String) (st : SinkState) (s : String),
      sinkOk s (st.buffers s) = false →
      (saveDataToCsv sinkOk symbols st).buffers s = st.buffers s := by
  intro symbols
  induction symbols with
  | nil => intro st s _; rfl
  | cons t rest ih =>
    intro st s hf
    rw [saveDataToCsv]
    by_cases hb : st.buffers t = []
    · rw [if_pos hb]
      exact ih st s hf
    · rw [if_neg hb]
      by_cases hok : sinkOk t (st.buffers t) = true
      · rw [if_pos hok]
        by_cases hts : s = t
        · subst hts
          rw [hok] at hf
          exact absurd hf (by simp)
        · have hbs : Function.update st.buffers t [] s = st.buffers s :=
            Function.update_noteq hts _ _
          have hrec := ih ⟨Function.update st.buffers t [],
              Function.update st.persisted t (st.persisted t ++ st.buffers t)⟩ s
            (by show sinkOk s (Function.update st.buffers t [] s) = false
                rw [hbs]
                exact hf)
          rw [hrec]
          show Function.update st.buffers t [] s = st.buffers s
          exact hbs
      · rw [if_neg hok]

/-- Counterexample for C8: after the sink fails for a symbol's batch, the
batch is NOT held separately from the live buffer — it is still the live
buffer itself (save_data_to_csv clears the buffer only after a successful
write, and the exception aborts before the clear), and nothing was
persisted. -/
theorem claim_C8_counterexample :
    (saveDataToCsv (fun _ _ => false) ["BTCUSDT"]
        { buffers := fun s => if s = "BTCUSDT" then [sampleRow] else [],
          persisted := fun _ => [] }).buffers "BTCUSDT" = [sampleRow]
    ∧ (saveDataToCsv (fun _ _ => false) ["BTCUSDT"]
        { buffers := fun s => if s = "BTCUSDT" then [sampleRow] else [],
          persisted := fun _ => [] }).persisted "BTCUSDT" = [] := by
  constructor <;> rfl

/-- C8 (amended): when the sink fails for one symbol's batch the batch is
retained in the live buffer itself (not in a separate holding area), so it
is re-attempted at the next scheduled flush rather than discarded; per
symbol, persisted output followed by the remaining buffer always equals the
state before the flush (no record lost, none persisted twice, order kept);
the failure is swallowed by the except handler so neither the flush
scheduler nor the ingest path halts (saveDataToCsv returns a state, never
an error), though symbols after the failing one are skipped that cycle. -/
theorem claim_C8_persistence_failure (sinkOk : String → List TradeRow → Bool)
    (symbols : List String) (st : SinkState) :
    (∀ s, (saveDataToCsv sinkOk symbols st).persisted s
        ++ (saveDataToCsv sinkOk symbols st).buffers s
      = st.persisted s ++ st.buffers s)
    ∧ (∀ s, sinkOk s (st.buffers s) = false →
        (saveDataToCsv sinkOk symbols st).buffers s = st.buffers s) :=
  ⟨fun s => saveDataToCsv_conserve sinkOk symbols st s,
   fun s hf => saveDataToCsv_retain sinkOk symbols st s hf⟩

/-- Witness for C8 (amended) at a concrete failing sink: the batch survives
in the live buffer and the per-symbol conservation holds. -/
theorem claim_C8_persistence_failure_witness :
    (saveDataToCsv (fun _ _ => false) ["BTCUSDT"]
        { buffers := fun s => if s = "BTCUSDT" then [sampleRow] else [],
          persisted := fun _ => [] }).persisted "BTCUSDT"
        ++ (saveDataToCsv (fun _ _ => false) ["BTCUSDT"]
        { buffers := fun s => if s = "BTCUSDT" then [sampleRow] else [],
          persisted := fun _ => [] }).buffers "BTCUSDT"
      = [] ++ [sampleRow]
    ∧ (saveDataToCsv (fun _ _ => false) ["BTCUSDT"]
        { buffers := fun s => if s = "BTCUSDT" then [sampleRow] else [],
          persisted := fun _ => [] }).buffers "BTCUSDT"
      = (if ("BTCUSDT" : String) = "BTCUSDT" then [sampleRow] else []) := by
  have h := claim_C8_persistence_failure (fun _ _ => false) ["BTCUSDT"]
    { buffers := fun s => if s = "BTCUSDT" then [sampleRow] else [],
      persisted := fun _ => [] }
  exact ⟨h.1 "BTCUSDT", h.2 "BTCUSDT" rfl⟩

end MexcBookTicker
